import Mathlib

/-!
Verification of the UART interface scripts (`uart_interface.py` and
`uart_interface_loopback.py`).

Bytes are modelled as `Nat` (with `< 256` hypotheses where the byte range
matters), byte strings as `List Nat`, Python text strings as `List Char`.
Python functions that can raise are modelled with `Option`, the raised
exception corresponding to `none`.  The serial library is the spec's
external collaborator; its operations (open/close, blocking byte-write,
blocking fixed-size read) are modelled at their interface: a written byte
is the byte passed to the write call, and the device on the other end of
the wire is a function from the written bytes to the 16 bytes read back.
-/

set_option autoImplicit false

namespace UartSpec

/-- Model of `divide_chunks` (`uart_interface.py` lines 83-87), a literal
translation of the Python loop
`for i in range(0, len(data), chunk_size): chunks.append(data[i:i+chunk_size])`:
for `chunk_size > 0` the iterator `range(0, len(data), chunk_size)` is the
arithmetic progression starting at 0 with stride `chunk_size` and
`(len(data) + chunk_size - 1) / chunk_size` elements, and the slice
`data[i:i+chunk_size]` is `(data.drop i).take chunk_size`.  Python raises
`ValueError` on `chunk_size = 0` (here the progression is empty); the
program only ever calls `chunk_size = 16`. -/
def divide_chunks (data : List Nat) (chunk_size : Nat) : List (List Nat) :=
  (List.range' 0 ((data.length + chunk_size - 1) / chunk_size) chunk_size).map
    (fun i => (data.drop i).take chunk_size)

/-- Model of `write_chunk` (`uart_interface.py` lines 89-95).  The result is
the sequence of bytes written on the wire, in order, one individual
`ser.write` call per list element (`ser.write` is the spec's external
"blocking byte-write" collaborator operation).  The loop
`for i in range(len(chunk)): ser.write(chunk[i])` writes the chunk itself;
the following loop `for _ in range(i+1, 16): ser.write(b'0')` reuses the
loop variable `i` (final value `len(chunk) - 1`), writing `16 - len(chunk)`
filler bytes `b'0' = 0x30`.  When `chunk` is empty, `i` was never assigned
and Python raises `UnboundLocalError`, modelled by `none`. -/
def write_chunk (chunk : List Nat) : Option (List Nat) :=
  if chunk = [] then none
  else some (chunk ++ List.replicate (16 - chunk.length) 0x30)

/-! Hexadecimal encoding (`bytes.hex()`) and the loopback self-test verdict. -/

/-- Lowercase hexadecimal digit characters as produced by Python
`bytes.hex()`: `'0'`-`'9'` for 0-9 and `'a'`-`'f'` for 10-15. -/
def hexDigitChar (n : Nat) : Char :=
  if n < 10 then Char.ofNat (48 + n) else Char.ofNat (87 + n)

/-- Model of Python `bytes.hex()`: two lowercase hex digits per byte, high
nibble first. -/
def bytes_hex (bs : List Nat) : List Char :=
  (bs.map (fun b => [hexDigitChar (b / 16), hexDigitChar (b % 16)])).flatten

/-- The fixed self-test literal (`uart_interface_loopback.py` line 120). -/
def input_data : List Char := "000102030405060708090a0b0c0d0e0f".toList

/-- The 16 bytes the fixed literal decodes to. -/
def test_bytes : List Nat := [0, 1, 2, 3, 4, 5, 6, 7, 8, 9, 10, 11, 12, 13, 14, 15]

/-- Model of the final comparison of `uart_interface_loopback.py` lines
133-136: `if (input_data == output_bytes.hex()): print("SUCCES")` else
`print("FAIL")`.  The success string printed by the code is literally
`"SUCCES"`. -/
def loopback_verdict (lit : List Char) (output_bytes : List Nat) : String :=
  if lit = bytes_hex output_bytes then "SUCCES" else "FAIL"

/-! Parsing of the self-test literal (`bytes.fromhex` plus the length
check). -/

/-- The ASCII whitespace characters skipped by CPython `bytes.fromhex`
(`Py_ISSPACE`): space, tab, newline, vertical tab, form feed, carriage
return. -/
def pySpace (c : Char) : Bool :=
  c == ' ' || c == '\t' || c == '\n' || c == Char.ofNat 11 || c == Char.ofNat 12 || c == '\r'

/-- Value of one hexadecimal digit as accepted by `bytes.fromhex`; `none`
for every other character. -/
def hexDigitVal (c : Char) : Option Nat :=
  if '0' ≤ c ∧ c ≤ '9' then some (c.toNat - 48)
  else if 'a' ≤ c ∧ c ≤ 'f' then some (c.toNat - 87)
  else if 'A' ≤ c ∧ c ≤ 'F' then some (c.toNat - 55)
  else none

/-- Model of Python `bytes.fromhex` (CPython `_PyBytes_FromHex`): ASCII
whitespace is skipped before each digit pair, then two consecutive hex
digits form one byte; a non-digit where a digit is required (including
whitespace between the two digits of a pair, or a dangling single digit)
raises `ValueError`, modelled by `none`. -/
def pyFromhex : List Char → Option (List Nat)
  | [] => some []
  | c :: rest =>
    if pySpace c then pyFromhex rest
    else
      match hexDigitVal c, rest with
      | some hi, c2 :: rest2 =>
        match hexDigitVal c2 with
        | some lo => (pyFromhex rest2).map (fun bs => (16 * hi + lo) :: bs)
        | none => none
      | _, _ => none

/-- Outcome of the self-test literal validation. -/
inductive ParseResult where
  | lengthError : ParseResult
  | hexError : ParseResult
  | ok : List Nat → ParseResult
deriving DecidableEq

/-- Model of the literal validation in the `__main__` block of
`uart_interface_loopback.py` (lines 122-129): the length check
`len(input_data) != 32` runs first and exits with the length message;
otherwise `bytes.fromhex(input_data)` runs and a `ValueError` exits with
the hex-format message. -/
def selfTestParse (lit : List Char) : ParseResult :=
  if lit.length ≠ 32 then ParseResult.lengthError
  else
    match pyFromhex lit with
    | none => ParseResult.hexError
    | some bs => ParseResult.ok bs

/-- Model of the whole `__main__` block of `uart_interface_loopback.py`:
`main` (which opens the serial port and performs the exchange) is reached
only when the literal parses; the device is modelled as the function from
the written bytes to the 16 bytes read back.  `none` means the program
exited before any serial I/O was attempted. -/
def selfTestRun (lit : List Char) (device : List Nat → List Nat) : Option String :=
  match selfTestParse lit with
  | ParseResult.lengthError => none
  | ParseResult.hexError => none
  | ParseResult.ok input_bytes => some (loopback_verdict lit (device input_bytes))

/-! The port-selection menu (`serial_port_menu`). -/

/-- Python list indexing `l[i]` with an `int` index: a negative index
addresses from the end (`l[i]` is `l[len(l)+i]` for `-len(l) <= i < 0`);
an index out of that extended range raises `IndexError` (`none`). -/
def pyGetItem {α : Type} (l : List α) (i : Int) : Option α :=
  if 0 ≤ i then l[i.toNat]?
  else if -(l.length : Int) ≤ i then l[(i + l.length).toNat]?
  else none

/-- Outcome of one iteration of the selection loop: `typeError` stands for
printing "Wrong reponse type, try again !" and looping, `outOfRange` for
printing the "... is out of range, try again !" message and looping. -/
inductive MenuOutcome where
  | typeError : MenuOutcome
  | outOfRange : MenuOutcome
  | chosen : String → MenuOutcome
deriving DecidableEq

/-- One iteration of the selection loop of `serial_port_menu`
(`uart_interface.py` lines 54-67; the loopback variant lines 65-78 is
identical): `resp = int(input(""))` either raises `ValueError` (input
modelled as `none`) or yields an integer `resp` (input `some resp`); then
`available_ports[resp]` either returns a port or raises `IndexError`. -/
def menu_step (available_ports : List String) (inp : Option Int) : MenuOutcome :=
  match inp with
  | none => MenuOutcome.typeError
  | some resp =>
    match pyGetItem available_ports resp with
    | some port => MenuOutcome.chosen port
    | none => MenuOutcome.outOfRange

/-- The selection loop (`while True:`) over a stream of operator inputs:
iterations re-prompt until one selects a port; `none` when the stream is
exhausted without a selection (the Python loop would keep prompting). -/
def menu_loop (available_ports : List String) : List (Option Int) → Option String
  | [] => none
  | inp :: rest =>
    match menu_step available_ports inp with
    | MenuOutcome.chosen port => some port
    | _ => menu_loop available_ports rest

/-- Model of the enumeration retry loop at the top of `serial_port_menu`
(`uart_interface.py` lines 49-53; loopback variant lines 56-60):
`serial_ports()` is called, and while the result is empty the operator is
prompted once ("No serial port available ... press enter to try again") and
`serial_ports()` is called again.  The enumerator is modelled by the finite
stream of its successive results; returned are the number of operator
prompts issued paired with the first non-empty result, or `none` when the
stream runs out (the Python loop would keep prompting). -/
def choose_port_scan : List (List String) → Option (Nat × List String)
  | [] => none
  | e :: rest =>
    if e = [] then (choose_port_scan rest).map (fun r => (r.1 + 1, r.2))
    else some (0, e)

/-- The whole `serial_port_menu` of `uart_interface.py`: the enumeration
retry loop followed by the numbered selection menu over the operator input
stream. -/
def serial_port_menu (enums : List (List String)) (inputs : List (Option Int)) :
    Option String :=
  match choose_port_scan enums with
  | none => none
  | some r => menu_loop r.2 inputs

/-! Serial-level event traces, for comparing the session variant's
`write_chunk`/`read_chunk` pair with the loopback variant's exchange. -/

/-- One observable action on the serial library. -/
inductive SerialEvent where
  | openPort : SerialEvent
  | settle : SerialEvent
  | write : List Nat → SerialEvent
  | read : Nat → SerialEvent
  | closePort : SerialEvent
deriving DecidableEq

/-- Event-level predicate: is this event a write call. -/
def isWriteEvent : SerialEvent → Bool
  | SerialEvent.write _ => true
  | _ => false

/-- Event-level predicate: is this event the 100 ms settling delay. -/
def isSettleEvent : SerialEvent → Bool
  | SerialEvent.settle => true
  | _ => false

/-- Event-level predicate: is this event an opening of the port. -/
def isOpenEvent : SerialEvent → Bool
  | SerialEvent.openPort => true
  | _ => false

/-- Serial event trace of `write_chunk` (`uart_interface.py` lines 89-95):
the `with serial.Serial(...)` block opens and finally closes the port,
`time.sleep(0.1)` is the fixed 100 ms settling delay, then one single-byte
write per chunk byte and per filler byte.  As in `write_chunk`, `none`
models the `UnboundLocalError` on an empty chunk. -/
def write_chunk_events (chunk : List Nat) : Option (List SerialEvent) :=
  if chunk = [] then none
  else some ([SerialEvent.openPort, SerialEvent.settle] ++
    (chunk ++ List.replicate (16 - chunk.length) 0x30).map (fun b => SerialEvent.write [b]) ++
    [SerialEvent.closePort])

/-- Serial event trace of `read_chunk` (`uart_interface.py` lines 97-101):
open, settle 100 ms, one 16-byte read, close. -/
def read_chunk_events : List SerialEvent :=
  [SerialEvent.openPort, SerialEvent.settle, SerialEvent.read 16, SerialEvent.closePort]

/-- The session variant's per-chunk exchange: `write_chunk` then
`read_chunk` (`uart_interface.py` lines 123-124). -/
def transfer_events (chunk : List Nat) : Option (List SerialEvent) :=
  (write_chunk_events chunk).map (fun t => t ++ read_chunk_events)

/-- Serial event trace of the loopback variant's exchange
(`uart_interface_loopback.py` lines 112-114): a single `with` block around
one bulk `ser.write(input_bytes)` and one 16-byte read; no `time.sleep`
appears. -/
def loopback_exchange_events (input_bytes : List Nat) : List SerialEvent :=
  [SerialEvent.openPort, SerialEvent.write input_bytes, SerialEvent.read 16,
    SerialEvent.closePort]

/-! Text encoding and decoding (Python default codec, UTF-8) and the session
loop's reconstruction step. -/

/-- UTF-8 encoding of one character (`str.encode()` with the default
codec). -/
def utf8EncodeChar (c : Char) : List Nat :=
  let n := c.toNat
  if n < 0x80 then [n]
  else if n < 0x800 then [0xC0 + n / 64, 0x80 + n % 64]
  else if n < 0x10000 then [0xE0 + n / 4096, 0x80 + n / 64 % 64, 0x80 + n % 64]
  else [0xF0 + n / 262144, 0x80 + n / 4096 % 64, 0x80 + n / 64 % 64, 0x80 + n % 64]

/-- Model of `input_text.encode()` (`uart_interface.py` line 116). -/
def str_encode (text : List Char) : List Nat :=
  (text.map utf8EncodeChar).flatten

/-- Lower bound for the first continuation byte of a strict UTF-8 decoder:
`0xE0` requires `0xA0..` (no overlong forms) and `0xF0` requires `0x90..`. -/
def utf8Cont2Lo (b1 : Nat) : Nat :=
  if b1 = 0xE0 then 0xA0 else if b1 = 0xF0 then 0x90 else 0x80

/-- Upper bound for the first continuation byte of a strict UTF-8 decoder:
`0xED` allows only `..0x9F` (no surrogates) and `0xF4` only `..0x8F` (no
code points beyond `U+10FFFF`). -/
def utf8Cont2Hi (b1 : Nat) : Nat :=
  if b1 = 0xED then 0x9F else if b1 = 0xF4 then 0x8F else 0xBF

/-- One step of a strict UTF-8 decoder: decode the first code point of the
byte list and return it with the remaining bytes; `none` on any byte
sequence that strict UTF-8 rejects (stray continuation bytes, overlong
forms, surrogates, code points beyond `U+10FFFF`, truncated sequences).
Every successful step consumes at least one byte. -/
def utf8DecodeOne (l : List Nat) : Option (Char × List Nat) :=
  match l with
  | [] => none
  | b1 :: rest =>
    if b1 < 0x80 then some (Char.ofNat b1, rest)
    else if 0xC2 ≤ b1 ∧ b1 ≤ 0xDF then
      match rest with
      | b2 :: rest2 =>
        if 0x80 ≤ b2 ∧ b2 ≤ 0xBF then
          some (Char.ofNat ((b1 - 0xC0) * 64 + (b2 - 0x80)), rest2)
        else none
      | [] => none
    else if 0xE0 ≤ b1 ∧ b1 ≤ 0xEF then
      match rest with
      | b2 :: b3 :: rest3 =>
        if (utf8Cont2Lo b1 ≤ b2 ∧ b2 ≤ utf8Cont2Hi b1) ∧ (0x80 ≤ b3 ∧ b3 ≤ 0xBF) then
          some (Char.ofNat ((b1 - 0xE0) * 4096 + (b2 - 0x80) * 64 + (b3 - 0x80)), rest3)
        else none
      | _ => none
    else if 0xF0 ≤ b1 ∧ b1 ≤ 0xF4 then
      match rest with
      | b2 :: b3 :: b4 :: rest4 =>
        if (utf8Cont2Lo b1 ≤ b2 ∧ b2 ≤ utf8Cont2Hi b1) ∧ (0x80 ≤ b3 ∧ b3 ≤ 0xBF) ∧
            (0x80 ≤ b4 ∧ b4 ≤ 0xBF) then
          some (Char.ofNat ((b1 - 0xF0) * 262144 + (b2 - 0x80) * 4096 +
            (b3 - 0x80) * 64 + (b4 - 0x80)), rest4)
        else none
      | _ => none
    else none

/-- Decoding loop driven by a fuel counter bounding the number of decoded
characters.  Since every successful `utf8DecodeOne` step consumes at least
one byte, a fuel equal to the byte count is always sufficient and the
fuel-exhausted arm is unreachable from `utf8Decode`. -/
def utf8DecodeLoop : Nat → List Nat → Option (List Char)
  | _, [] => some []
  | 0, _ :: _ => none
  | fuel + 1, b :: rest =>
    match utf8DecodeOne (b :: rest) with
    | none => none
    | some (c, rest2) => (utf8DecodeLoop fuel rest2).map (fun cs => c :: cs)

/-- Model of Python `bytes.decode()` with the default strict UTF-8 codec:
`none` models the `UnicodeDecodeError` raised on input that is not valid
UTF-8. -/
def utf8Decode (l : List Nat) : Option (List Char) :=
  utf8DecodeLoop l.length l

/-- The per-chunk exchange loop of the session `__main__`
(`uart_interface.py` lines 120-125): each chunk is written with
`write_chunk` and the 16 bytes `read_chunk` returns are the device's
response to the frame written on the wire.  `none` propagates a failure of
`write_chunk`. -/
def session_responses (chunks : List (List Nat)) (device : List Nat → List Nat) :
    Option (List (List Nat)) :=
  match chunks with
  | [] => some []
  | c :: rest =>
    match write_chunk c, session_responses rest device with
    | some frame, some frames => some (device frame :: frames)
    | _, _ => none

/-- The decoding comprehension of `uart_interface.py` line 127
(`[b.decode() for b in output_chunks]`): fails if any response chunk is not
valid UTF-8. -/
def decode_chunks : List (List Nat) → Option (List (List Char))
  | [] => some []
  | c :: rest =>
    match utf8Decode c, decode_chunks rest with
    | some d, some ds => some (d :: ds)
    | _, _ => none

/-- Model of `uart_interface.py` line 127:
`"".join([b.decode() for b in output_chunks])[:len(input_text)]`. -/
def reconstruct (output_chunks : List (List Nat)) (input_len : Nat) : Option (List Char) :=
  (decode_chunks output_chunks).map (fun ds => ds.flatten.take input_len)

/-- One iteration of the session loop (`uart_interface.py` lines 114-128):
encode the operator's text, split into 16-byte chunks, exchange each chunk
with the device, then decode, join and truncate. -/
def session_round (input_text : List Char) (device : List Nat → List Nat) :
    Option (List Char) :=
  match session_responses (divide_chunks (str_encode input_text) 16) device with
  | none => none
  | some output_chunks => reconstruct output_chunks input_text.length

/-! Helper lemmas about `divide_chunks`. -/

theorem divide_chunks_nil (chunk_size : Nat) : divide_chunks [] chunk_size = [] := by
  have h0 : (([] : List Nat).length + chunk_size - 1) / chunk_size = 0 := by
    rcases Nat.eq_zero_or_pos chunk_size with h | h
    · simp [h]
    · refine Nat.div_eq_of_lt ?_
      simp only [List.length_nil]
      omega
  rw [divide_chunks, h0]
  rfl

theorem divide_chunks_cons (data : List Nat) (chunk_size : Nat)
    (hd : data ≠ []) (hc : chunk_size ≠ 0) :
    divide_chunks data chunk_size =
      data.take chunk_size :: divide_chunks (data.drop chunk_size) chunk_size := by
  have hlen : 1 ≤ data.length := List.length_pos.mpr hd
  have hcs : 1 ≤ chunk_size := Nat.one_le_iff_ne_zero.mpr hc
  have hn : (data.length + chunk_size - 1) / chunk_size =
      ((data.drop chunk_size).length + chunk_size - 1) / chunk_size + 1 := by
    rw [List.length_drop]
    rcases le_or_lt data.length chunk_size with hle | hlt
    · have e1 : data.length - chunk_size = 0 := Nat.sub_eq_zero_of_le hle
      have e2 : data.length + chunk_size - 1 = (data.length - 1) + chunk_size := by omega
      rw [e1, e2, Nat.add_div_right _ (by omega), Nat.div_eq_of_lt (by omega),
        Nat.div_eq_of_lt (by omega)]
    · have e2 : data.length + chunk_size - 1 = (data.length - 1) + chunk_size := by omega
      have e3 : data.length - chunk_size + chunk_size - 1 =
          (data.length - chunk_size - 1) + chunk_size := by omega
      have e4 : data.length - 1 = (data.length - chunk_size - 1) + chunk_size := by omega
      rw [e2, e3, Nat.add_div_right _ (by omega), Nat.add_div_right _ (by omega), e4,
        Nat.add_div_right _ (by omega)]
  rw [divide_chunks, divide_chunks, hn, List.range'_succ, List.map_cons]
  congr 1
  rw [show 0 + chunk_size = chunk_size + 0 from by omega, ← List.map_add_range',
    List.map_map]
  refine List.map_congr_left ?_
  intro i _
  show (data.drop (chunk_size + i)).take chunk_size =
    ((data.drop chunk_size).drop i).take chunk_size
  rw [List.drop_drop]

/-- Induction principle following the recursion of `divide_chunks`. -/
theorem divide_chunks_induction (chunk_size : Nat) (hc : chunk_size ≠ 0)
    (P : List Nat → Prop) (hnil : P [])
    (hcons : ∀ data : List Nat, data ≠ [] → P (data.drop chunk_size) → P data) :
    ∀ data : List Nat, P data := by
  have key : ∀ n : Nat, ∀ data : List Nat, data.length ≤ n → P data := by
    intro n
    induction n with
    | zero =>
      intro data h
      have : data = [] := List.eq_nil_of_length_eq_zero (Nat.le_zero.mp h)
      simpa [this] using hnil
    | succ n ih =>
      intro data h
      by_cases hd : data = []
      · simpa [hd] using hnil
      · refine hcons data hd (ih _ ?_)
        simp only [List.length_drop]
        have h1 : 0 < data.length := List.length_pos.mpr hd
        omega
  intro data
  exact key data.length data le_rfl

theorem divide_chunks_flatten (chunk_size : Nat) (hc : chunk_size ≠ 0) (data : List Nat) :
    (divide_chunks data chunk_size).flatten = data := by
  refine divide_chunks_induction chunk_size hc
    (fun d => (divide_chunks d chunk_size).flatten = d) (by simp [divide_chunks_nil]) ?_ data
  intro d hd ih
  rw [divide_chunks_cons d chunk_size hd hc, List.flatten_cons, ih, List.take_append_drop]

theorem divide_chunks_length_mem (chunk_size : Nat) (hc : chunk_size ≠ 0) (data : List Nat) :
    ∀ c ∈ divide_chunks data chunk_size, 1 ≤ c.length ∧ c.length ≤ chunk_size := by
  refine divide_chunks_induction chunk_size hc
    (fun d => ∀ c ∈ divide_chunks d chunk_size, 1 ≤ c.length ∧ c.length ≤ chunk_size)
    (by simp [divide_chunks_nil]) ?_ data
  intro d hd ih c hmem
  rw [divide_chunks_cons d chunk_size hd hc] at hmem
  rcases List.mem_cons.mp hmem with h | h
  · subst h
    have h1 : 0 < d.length := List.length_pos.mpr hd
    constructor
    · simp only [List.length_take]
      omega
    · simp only [List.length_take]
      omega
  · exact ih c h

theorem divide_chunks_eq_nil_iff (chunk_size : Nat) (hc : chunk_size ≠ 0) (data : List Nat) :
    divide_chunks data chunk_size = [] ↔ data = [] := by
  constructor
  · intro h
    by_contra hd
    rw [divide_chunks_cons data chunk_size hd hc] at h
    exact List.cons_ne_nil _ _ h
  · intro h
    simp [h, divide_chunks_nil]

theorem divide_chunks_dropLast (chunk_size : Nat) (hc : chunk_size ≠ 0) (data : List Nat) :
    ∀ c ∈ (divide_chunks data chunk_size).dropLast, c.length = chunk_size := by
  refine divide_chunks_induction chunk_size hc
    (fun d => ∀ c ∈ (divide_chunks d chunk_size).dropLast, c.length = chunk_size)
    (by simp [divide_chunks_nil]) ?_ data
  intro d hd ih c hmem
  rw [divide_chunks_cons d chunk_size hd hc] at hmem
  by_cases hrest : divide_chunks (d.drop chunk_size) chunk_size = []
  · rw [hrest] at hmem
    simp at hmem
  · rw [List.dropLast_cons_of_ne_nil hrest] at hmem
    rcases List.mem_cons.mp hmem with h | h
    · subst h
      have hdrop : d.drop chunk_size ≠ [] :=
        fun hnil => hrest (by simp [hnil, divide_chunks_nil])
      have h2 : chunk_size < d.length := by
        by_contra hle
        exact hdrop (List.drop_eq_nil_of_le (Nat.le_of_not_lt hle))
      simp only [List.length_take]
      omega
    · exact ih c h

theorem divide_chunks_count (chunk_size : Nat) (hc : chunk_size ≠ 0) (data : List Nat) :
    (divide_chunks data chunk_size).length = (data.length + chunk_size - 1) / chunk_size := by
  refine divide_chunks_induction chunk_size hc
    (fun d => (divide_chunks d chunk_size).length = (d.length + chunk_size - 1) / chunk_size)
    ?_ ?_ data
  · simp only [divide_chunks_nil, List.length_nil]
    exact (Nat.div_eq_of_lt (by omega)).symm
  · intro d hd ih
    rw [divide_chunks_cons d chunk_size hd hc]
    simp only [List.length_cons, ih, List.length_drop]
    have h1 : 0 < d.length := List.length_pos.mpr hd
    have hcs : 0 < chunk_size := Nat.pos_of_ne_zero hc
    rcases le_or_lt d.length chunk_size with hle | hlt
    · have e1 : d.length - chunk_size = 0 := Nat.sub_eq_zero_of_le hle
      have e2 : d.length + chunk_size - 1 = (d.length - 1) + chunk_size := by omega
      rw [e1, e2, Nat.add_div_right _ hcs, Nat.div_eq_of_lt (by omega),
        Nat.div_eq_of_lt (by omega)]
    · have e2 : d.length + chunk_size - 1 = (d.length - 1) + chunk_size := by omega
      have e3 : d.length - chunk_size + chunk_size - 1 =
          (d.length - chunk_size - 1) + chunk_size := by omega
      have e4 : d.length - 1 = (d.length - chunk_size - 1) + chunk_size := by omega
      rw [e2, e3, Nat.add_div_right _ hcs, Nat.add_div_right _ hcs, e4,
        Nat.add_div_right _ hcs]

/-! Helper lemmas about the hexadecimal encoding. -/

theorem hexDigitChar_inj : ∀ a, a < 16 → ∀ b, b < 16 →
    hexDigitChar a = hexDigitChar b → a = b := by decide

theorem bytes_hex_inj (xs : List Nat) (hx : ∀ b ∈ xs, b < 256) :
    ∀ ys : List Nat, (∀ b ∈ ys, b < 256) → bytes_hex xs = bytes_hex ys → xs = ys := by
  induction xs with
  | nil =>
    intro ys hy h
    cases ys with
    | nil => rfl
    | cons y ys => simp [bytes_hex] at h
  | cons x xs ih =>
    intro ys hy h
    cases ys with
    | nil => simp [bytes_hex] at h
    | cons y ys =>
      simp only [bytes_hex, List.map_cons, List.flatten_cons, List.cons_append,
        List.nil_append, List.cons.injEq] at h
      obtain ⟨h1, h2, h3⟩ := h
      have hx1 : x < 256 := hx x (List.mem_cons_self x xs)
      have hy1 : y < 256 := hy y (List.mem_cons_self y ys)
      have e1 : x / 16 = y / 16 :=
        hexDigitChar_inj _ (by omega) _ (by omega) h1
      have e2 : x % 16 = y % 16 :=
        hexDigitChar_inj _ (Nat.mod_lt x (by omega)) _ (Nat.mod_lt y (by omega)) h2
      have exy : x = y := by
        have dx := Nat.div_add_mod x 16
        have dy := Nat.div_add_mod y 16
        omega
      have etail : xs = ys := by
        refine ih (fun b hb => hx b (List.mem_cons_of_mem x hb)) ys
          (fun b hb => hy b (List.mem_cons_of_mem y hb)) ?_
        simpa [bytes_hex] using h3
      rw [exy, etail]

/-! Helper lemmas about `pyFromhex`. -/

theorem pyFromhex_cons (c1 : Char) (rest : List Char) :
    pyFromhex (c1 :: rest) =
      if pySpace c1 then pyFromhex rest
      else
        match hexDigitVal c1, rest with
        | some hi, c2 :: rest2 =>
          match hexDigitVal c2 with
          | some lo => (pyFromhex rest2).map (fun bs => (16 * hi + lo) :: bs)
          | none => none
        | _, _ => none := by
  rw [pyFromhex.eq_def]

theorem pyFromhex_chars : ∀ l : List Char, (∃ bs, pyFromhex l = some bs) →
    ∀ c ∈ l, pySpace c = true ∨ hexDigitVal c ≠ none := by
  have key : ∀ n : Nat, ∀ l : List Char, l.length ≤ n → (∃ bs, pyFromhex l = some bs) →
      ∀ c ∈ l, pySpace c = true ∨ hexDigitVal c ≠ none := by
    intro n
    induction n with
    | zero =>
      intro l hl _ c hc
      have : l = [] := List.eq_nil_of_length_eq_zero (Nat.le_zero.mp hl)
      subst this
      simp at hc
    | succ n ih =>
      intro l hl hsome c hc
      cases l with
      | nil => simp at hc
      | cons c1 rest =>
        obtain ⟨bs, h⟩ := hsome
        by_cases hsp : pySpace c1
        · rw [pyFromhex_cons, if_pos hsp] at h
          rcases List.mem_cons.mp hc with hc1 | hc1
          · exact Or.inl (hc1 ▸ hsp)
          · refine ih rest ?_ ⟨bs, h⟩ c hc1
            simp only [List.length_cons] at hl
            omega
        · cases hv1 : hexDigitVal c1 with
          | none =>
            rw [pyFromhex_cons, if_neg hsp] at h
            cases rest with
            | nil => simp [hv1] at h
            | cons c2 rest2 => simp [hv1] at h
          | some hi =>
            cases rest with
            | nil =>
              rw [pyFromhex_cons, if_neg hsp] at h
              simp [hv1] at h
            | cons c2 rest2 =>
              rw [pyFromhex_cons, if_neg hsp] at h
              cases hv2 : hexDigitVal c2 with
              | none => simp [hv1, hv2] at h
              | some lo =>
                simp only [hv1, hv2] at h
                have hrest2 : ∃ bs2, pyFromhex rest2 = some bs2 := by
                  cases hp : pyFromhex rest2 with
                  | none => rw [hp] at h; simp at h
                  | some bs2 => exact ⟨bs2, rfl⟩
                rcases List.mem_cons.mp hc with hc1 | hc1
                · refine Or.inr ?_
                  rw [hc1, hv1]
                  simp
                · rcases List.mem_cons.mp hc1 with hc2 | hc2
                  · refine Or.inr ?_
                    rw [hc2, hv2]
                    simp
                  · refine ih rest2 ?_ hrest2 c hc2
                    simp only [List.length_cons] at hl
                    omega
  intro l
  exact key l.length l le_rfl

theorem pyFromhex_none_of_bad (l : List Char) (c : Char) (hc : c ∈ l)
    (hval : hexDigitVal c = none) (hsp : pySpace c = false) : pyFromhex l = none := by
  cases hp : pyFromhex l with
  | none => rfl
  | some bs =>
    rcases pyFromhex_chars l ⟨bs, hp⟩ c hc with h | h
    · rw [hsp] at h
      exact absurd h (by simp)
    · exact absurd hval h

/-! Helper lemmas about the selection menu. -/

theorem pyGetItem_mem {α : Type} (l : List α) (i : Int) (a : α)
    (h : pyGetItem l i = some a) : a ∈ l := by
  rw [pyGetItem] at h
  by_cases h0 : 0 ≤ i
  · rw [if_pos h0] at h
    exact List.getElem?_mem h
  · rw [if_neg h0] at h
    by_cases h1 : -(l.length : Int) ≤ i
    · rw [if_pos h1] at h
      exact List.getElem?_mem h
    · rw [if_neg h1] at h
      exact absurd h (by simp)

theorem menu_step_chosen_mem (ports : List String) (inp : Option Int) (q : String)
    (h : menu_step ports inp = MenuOutcome.chosen q) : q ∈ ports := by
  cases inp with
  | none => simp [menu_step] at h
  | some i =>
    rw [menu_step] at h
    cases hg : pyGetItem ports i with
    | none => simp [hg] at h
    | some q2 =>
      simp only [hg] at h
      injection h with hq
      exact hq ▸ pyGetItem_mem ports i q2 hg

theorem menu_loop_mem (ports : List String) (inputs : List (Option Int)) (p : String)
    (h : menu_loop ports inputs = some p) : p ∈ ports := by
  induction inputs with
  | nil => simp [menu_loop] at h
  | cons inp rest ih =>
    rw [menu_loop] at h
    cases hstep : menu_step ports inp with
    | chosen q =>
      rw [hstep] at h
      cases h
      exact menu_step_chosen_mem ports inp p hstep
    | typeError =>
      rw [hstep] at h
      exact ih h
    | outOfRange =>
      rw [hstep] at h
      exact ih h

/-! Helper lemmas about encoding, decoding and the session loop. -/

theorem write_chunk_of_ne_nil (c : List Nat) (hc : c ≠ []) :
    write_chunk c = some (c ++ List.replicate (16 - c.length) 0x30) := by
  simp only [write_chunk, if_neg hc]

theorem str_encode_ascii (text : List Char) (h : ∀ c ∈ text, c.toNat < 128) :
    str_encode text = text.map Char.toNat := by
  induction text with
  | nil => rfl
  | cons c cs ih =>
    have hc : c.toNat < 128 := h c (List.mem_cons_self c cs)
    have e : utf8EncodeChar c = [c.toNat] := by simp [utf8EncodeChar, hc]
    have etail := ih (fun x hx => h x (List.mem_cons_of_mem c hx))
    simp only [str_encode, List.map_cons, List.flatten_cons] at etail ⊢
    rw [e, etail]
    rfl

theorem utf8DecodeOne_lt (b : Nat) (rest : List Nat) (hb : b < 128) :
    utf8DecodeOne (b :: rest) = some (Char.ofNat b, rest) := by
  simp only [utf8DecodeOne, if_pos hb]

theorem utf8DecodeLoop_cons (fuel : Nat) (b : Nat) (rest : List Nat) :
    utf8DecodeLoop (fuel + 1) (b :: rest) =
      match utf8DecodeOne (b :: rest) with
      | none => none
      | some (c, rest2) => (utf8DecodeLoop fuel rest2).map (fun cs => c :: cs) := rfl

theorem utf8Decode_ascii (bs : List Nat) (h : ∀ b ∈ bs, b < 128) :
    utf8Decode bs = some (bs.map Char.ofNat) := by
  induction bs with
  | nil => rfl
  | cons b rest ih =>
    have hb : b < 128 := h b (List.mem_cons_self b rest)
    have etail := ih (fun x hx => h x (List.mem_cons_of_mem b hx))
    show utf8DecodeLoop (rest.length + 1) (b :: rest) = _
    rw [utf8DecodeLoop_cons, utf8DecodeOne_lt b rest hb]
    show (utf8Decode rest).map (fun cs => Char.ofNat b :: cs) = _
    rw [etail]
    rfl

theorem session_responses_cons (c : List Nat) (rest : List (List Nat))
    (device : List Nat → List Nat) :
    session_responses (c :: rest) device =
      match write_chunk c, session_responses rest device with
      | some frame, some frames => some (device frame :: frames)
      | _, _ => none := by
  rw [session_responses.eq_def]

theorem session_responses_eq (chunks : List (List Nat)) (device : List Nat → List Nat)
    (h : ∀ c ∈ chunks, c ≠ []) :
    session_responses chunks device =
      some (chunks.map (fun c => device (c ++ List.replicate (16 - c.length) 0x30))) := by
  induction chunks with
  | nil => rfl
  | cons c rest ih =>
    have hc : c ≠ [] := h c (List.mem_cons_self c rest)
    have etail := ih (fun x hx => h x (List.mem_cons_of_mem c hx))
    rw [session_responses_cons, write_chunk_of_ne_nil c hc, etail]
    rfl

theorem decode_chunks_cons (c : List Nat) (rest : List (List Nat)) :
    decode_chunks (c :: rest) =
      match utf8Decode c, decode_chunks rest with
      | some d, some ds => some (d :: ds)
      | _, _ => none := by
  rw [decode_chunks.eq_def]

theorem decode_chunks_ascii (frames : List (List Nat))
    (h : ∀ f ∈ frames, ∀ b ∈ f, b < 128) :
    decode_chunks frames = some (frames.map (fun f => f.map Char.ofNat)) := by
  induction frames with
  | nil => rfl
  | cons f rest ih =>
    have hf := h f (List.mem_cons_self f rest)
    have etail := ih (fun x hx => h x (List.mem_cons_of_mem f hx))
    rw [decode_chunks_cons, utf8Decode_ascii f hf, etail]
    rfl

theorem padded_flatten (data : List Nat) :
    ∃ k, ((divide_chunks data 16).map
        (fun c => c ++ List.replicate (16 - c.length) 0x30)).flatten =
      data ++ List.replicate k 0x30 := by
  refine divide_chunks_induction 16 (by decide)
    (fun d => ∃ k, ((divide_chunks d 16).map
        (fun c => c ++ List.replicate (16 - c.length) 0x30)).flatten =
      d ++ List.replicate k 0x30) ⟨0, by simp [divide_chunks_nil]⟩ ?_ data
  intro d hd ih
  obtain ⟨k, ihk⟩ := ih
  rw [divide_chunks_cons d 16 hd (by decide)]
  simp only [List.map_cons, List.flatten_cons]
  rcases le_or_lt d.length 16 with hle | hlt
  · have ht : d.take 16 = d := List.take_of_length_le hle
    have hdr : d.drop 16 = [] := List.drop_eq_nil_of_le hle
    refine ⟨16 - d.length, ?_⟩
    rw [ht, hdr, divide_chunks_nil]
    simp
  · have hlen : (d.take 16).length = 16 := by
      simp only [List.length_take]
      omega
    refine ⟨k, ?_⟩
    rw [ihk, hlen]
    simp only [Nat.sub_self, List.replicate_zero, List.append_nil]
    rw [← List.append_assoc, List.take_append_drop]

theorem bytes_of_encode_ascii (text : List Char) (h : ∀ c ∈ text, c.toNat < 128) :
    ∀ b ∈ str_encode text, b < 128 := by
  rw [str_encode_ascii text h]
  intro b hb
  obtain ⟨c, hc, rfl⟩ := List.mem_map.mp hb
  exact h c hc

theorem session_frames_ascii (data : List Nat) (h : ∀ b ∈ data, b < 128) :
    ∀ f ∈ (divide_chunks data 16).map
      (fun c => c ++ List.replicate (16 - c.length) 0x30), ∀ b ∈ f, b < 128 := by
  intro f hf b hb
  obtain ⟨c, hc, rfl⟩ := List.mem_map.mp hf
  rcases List.mem_append.mp hb with hbc | hbr
  · refine h b ?_
    rw [← divide_chunks_flatten 16 (by decide) data]
    exact List.mem_flatten.mpr ⟨c, hc, hbc⟩
  · have := List.eq_of_mem_replicate hbr
    omega

theorem session_round_ascii (text : List Char) (h : ∀ c ∈ text, c.toNat < 128) :
    session_round text (fun f => f) = some text := by
  have hbytes : ∀ b ∈ str_encode text, b < 128 := bytes_of_encode_ascii text h
  have hchunks : ∀ c ∈ divide_chunks (str_encode text) 16, c ≠ [] := by
    intro c hc
    have h1 := (divide_chunks_length_mem 16 (by decide) (str_encode text) c hc).1
    exact List.length_pos.mp (by omega)
  have hframes := session_frames_ascii (str_encode text) hbytes
  have h1 : session_round text (fun f => f) =
      reconstruct ((divide_chunks (str_encode text) 16).map
        (fun c => c ++ List.replicate (16 - c.length) 0x30)) text.length := by
    rw [session_round.eq_def, session_responses_eq _ _ hchunks]
  rw [h1]
  unfold reconstruct
  rw [decode_chunks_ascii _ hframes]
  obtain ⟨k, hk⟩ := padded_flatten (str_encode text)
  show some _ = some text
  congr 1
  simp only []
  rw [← List.map_flatten, hk, str_encode_ascii text h, List.map_append, List.map_map]
  have hid : (text.map (Char.ofNat ∘ Char.toNat)) = text := by
    rw [show Char.ofNat ∘ Char.toNat = id from funext Char.ofNat_toNat, List.map_id]
  rw [hid, List.map_replicate, List.take_left]

theorem divide_chunks_single (data : List Nat) (h1 : data ≠ []) (h2 : data.length ≤ 16) :
    divide_chunks data 16 = [data] := by
  rw [divide_chunks_cons data 16 h1 (by decide), List.take_of_length_le h2,
    List.drop_eq_nil_of_le h2, divide_chunks_nil]

theorem choose_port_scan_sound (enums : List (List String)) :
    ∀ n r, choose_port_scan enums = some (n, r) →
      r ≠ [] ∧ enums[n]? = some r ∧ ∀ k, k < n → enums[k]? = some [] := by
  induction enums with
  | nil =>
    intro n r h
    rw [choose_port_scan] at h
    simp at h
  | cons e rest ih =>
    intro n r h
    rw [choose_port_scan] at h
    by_cases he : e = []
    · rw [if_pos he] at h
      cases hs : choose_port_scan rest with
      | none =>
        rw [hs] at h
        simp at h
      | some nr =>
        rw [hs] at h
        simp only [Option.map_some'] at h
        injection h with h'
        rw [Prod.mk.injEq] at h'
        obtain ⟨hn, hr⟩ := h'
        subst hn
        subst hr
        obtain ⟨h1, h2, h3⟩ := ih nr.1 nr.2 (by rw [hs])
        refine ⟨h1, by simpa using h2, ?_⟩
        intro k hk
        cases k with
        | zero => simp [he]
        | succ k' =>
          simp only [List.getElem?_cons_succ]
          exact h3 k' (by omega)
    · rw [if_neg he] at h
      injection h with h'
      rw [Prod.mk.injEq] at h'
      obtain ⟨hn, hr⟩ := h'
      subst hn
      subst hr
      exact ⟨he, by simp, fun k hk => absurd hk (by omega)⟩

/-! Theorems for the specification claims. -/

/-- C1: for every byte payload P and chunk size 16, `divide_chunks` returns
an ordered sequence of contiguous slices whose concatenation equals P, in
which every chunk except possibly the last has length exactly 16 and the
last (like every chunk) has length in [1,16]; the empty payload yields
zero chunks, and the number of chunks is `⌈len(P)/16⌉`, written
`(len(P) + 16 - 1) / 16` on `Nat`. -/
theorem C1_split_spec (P : List Nat) :
    (divide_chunks P 16).flatten = P ∧
    (∀ c ∈ (divide_chunks P 16).dropLast, c.length = 16) ∧
    (∀ c ∈ divide_chunks P 16, 1 ≤ c.length ∧ c.length ≤ 16) ∧
    (divide_chunks P 16 = [] ↔ P = []) ∧
    (divide_chunks P 16).length = (P.length + 16 - 1) / 16 :=
  ⟨divide_chunks_flatten 16 (by decide) P, divide_chunks_dropLast 16 (by decide) P,
    divide_chunks_length_mem 16 (by decide) P, divide_chunks_eq_nil_iff 16 (by decide) P,
    divide_chunks_count 16 (by decide) P⟩

/-- Witness for C1, evaluated at a payload of length 33 (3 chunks) with the
membership hypothesis discharged at its first chunk. -/
theorem C1_split_spec_witness :
    (divide_chunks (List.replicate 33 7) 16).length = 3 ∧
    (1 ≤ (List.replicate 16 (7 : Nat)).length ∧ (List.replicate 16 (7 : Nat)).length ≤ 16) :=
  ⟨(C1_split_spec (List.replicate 33 7)).2.2.2.2,
    (C1_split_spec (List.replicate 33 7)).2.2.1 (List.replicate 16 7) (by decide)⟩

/-- C2: for a chunk of length k with 1 ≤ k < 16, `write_chunk` emits
exactly the k chunk bytes in order (one single-byte write call per list
element) followed by 16 - k filler bytes 0x30 (ASCII '0'), so the frame
has length exactly 16; and a full 16-byte chunk is written with zero
filler bytes. -/
theorem C2_write_chunk_frame (chunk : List Nat) (h1 : 1 ≤ chunk.length)
    (h2 : chunk.length < 16) :
    (∃ t, write_chunk chunk = some t ∧ t.length = 16 ∧
      t.take chunk.length = chunk ∧
      t.drop chunk.length = List.replicate (16 - chunk.length) 0x30) ∧
    (∀ full : List Nat, full.length = 16 → write_chunk full = some full) := by
  constructor
  · have hne : chunk ≠ [] := List.length_pos.mp (by omega)
    refine ⟨chunk ++ List.replicate (16 - chunk.length) 0x30,
      write_chunk_of_ne_nil chunk hne, ?_, List.take_left chunk _, List.drop_left chunk _⟩
    simp only [List.length_append, List.length_replicate]
    omega
  · intro full hfull
    have hne : full ≠ [] := List.length_pos.mp (by omega)
    rw [write_chunk_of_ne_nil full hne, hfull]
    simp

/-- Witness for C2 at the concrete 3-byte chunk `[1, 2, 3]`. -/
theorem C2_write_chunk_frame_witness :
    ∃ t, write_chunk [1, 2, 3] = some t ∧ t.length = 16 ∧
      t.take 3 = [1, 2, 3] ∧ t.drop 3 = List.replicate 13 0x30 :=
  (C2_write_chunk_frame [1, 2, 3] (by decide) (by decide)).1

/-- C3 counterexample: on the verbatim echo of the fixed literal's bytes
the program's verdict string is `"SUCCES"`, not the claimed `"SUCCESS"`. -/
theorem C3_counterexample :
    pyFromhex input_data = some test_bytes ∧
    bytes_hex test_bytes = input_data ∧
    loopback_verdict input_data test_bytes ≠ "SUCCESS" ∧
    loopback_verdict input_data test_bytes = "SUCCES" := by decide

/-- C3 (amended): the self-test verdict is the code's literal string
`"SUCCES"` iff the hex encoding of the received bytes equals the fixed
literal, and `"FAIL"` otherwise; the verbatim echo yields `"SUCCES"`, and
any received byte string (bytes < 256) differing from the test bytes —
in particular in a single byte — yields `"FAIL"`. -/
theorem C3_verdict (out : List Nat) (hout : ∀ b ∈ out, b < 256) :
    (loopback_verdict input_data out = "SUCCES" ↔ bytes_hex out = input_data) ∧
    (loopback_verdict input_data out = "FAIL" ↔ bytes_hex out ≠ input_data) ∧
    loopback_verdict input_data test_bytes = "SUCCES" ∧
    (out ≠ test_bytes → loopback_verdict input_data out = "FAIL") := by
  by_cases h : input_data = bytes_hex out
  · have hv : loopback_verdict input_data out = "SUCCES" := by
      unfold loopback_verdict
      rw [if_pos h]
    refine ⟨⟨fun _ => h.symm, fun _ => hv⟩, ?_, by decide, ?_⟩
    · constructor
      · intro hf
        rw [hv] at hf
        exact absurd hf (by decide)
      · intro hne
        exact absurd h.symm hne
    · intro hne
      exfalso
      apply hne
      refine bytes_hex_inj out hout test_bytes (by decide) ?_
      rw [← h]
      decide
  · have hv : loopback_verdict input_data out = "FAIL" := by
      unfold loopback_verdict
      rw [if_neg h]
    refine ⟨?_, ⟨fun _ he => h he.symm, fun _ => hv⟩, by decide, fun _ => hv⟩
    constructor
    · intro hs
      rw [hv] at hs
      exact absurd hs (by decide)
    · intro he
      exact absurd he.symm h

/-- Witness for C3 at an echo differing from the test bytes in one byte. -/
theorem C3_verdict_witness :
    loopback_verdict input_data [0, 1, 2, 3, 4, 5, 6, 7, 8, 9, 10, 11, 12, 13, 14, 255] =
      "FAIL" :=
  (C3_verdict [0, 1, 2, 3, 4, 5, 6, 7, 8, 9, 10, 11, 12, 13, 14, 255]
    (by decide)).2.2.2 (by decide)

/-- C4 counterexample: on the fixed 16-byte payload, the loopback variant's
exchange trace is not the session variant's `write_chunk`/`read_chunk`
trace, and in particular contains no settling delay. -/
theorem C4_counterexample :
    some (loopback_exchange_events test_bytes) ≠ transfer_events test_bytes ∧
    SerialEvent.settle ∉ loopback_exchange_events test_bytes := by decide

/-- C4 (amended): the self-test variant's single exchange does not behave
as the session variant's `write_chunk`/`read_chunk` pair: it opens the
port once (not twice), performs no 100 ms settling delay, issues exactly
one bulk write call carrying the whole 16-byte payload (not 16 individual
single-byte writes), and reads the 16 bytes back on that same connection;
the session pair's trace, by contrast, settles twice, opens twice and
issues 16 single-byte write calls. -/
theorem C4_loopback_exchange :
    (loopback_exchange_events test_bytes).countP isSettleEvent = 0 ∧
    (loopback_exchange_events test_bytes).countP isOpenEvent = 1 ∧
    (loopback_exchange_events test_bytes).filter isWriteEvent =
      [SerialEvent.write test_bytes] ∧
    (∃ t, transfer_events test_bytes = some t ∧ t.countP isSettleEvent = 2 ∧
      t.countP isOpenEvent = 2 ∧
      t.filter isWriteEvent = test_bytes.map (fun b => SerialEvent.write [b])) :=
  ⟨by decide, by decide, by decide, ⟨_, rfl, by decide, by decide, by decide⟩⟩

/-- C5 counterexample: a 32-character literal containing non-hex characters
(two trailing spaces) is not rejected with a hex-format error:
`bytes.fromhex` skips ASCII whitespace, the parse succeeds with 15 bytes,
and serial I/O is attempted. -/
theorem C5_counterexample :
    ("000102030405060708090a0b0c0d0e  ".toList.length = 32 ∧
      ' ' ∈ "000102030405060708090a0b0c0d0e  ".toList ∧ hexDigitVal ' ' = none) ∧
    selfTestParse "000102030405060708090a0b0c0d0e  ".toList ≠ ParseResult.hexError ∧
    selfTestParse "000102030405060708090a0b0c0d0e  ".toList =
      ParseResult.ok [0, 1, 2, 3, 4, 5, 6, 7, 8, 9, 10, 11, 12, 13, 14] ∧
    selfTestRun "000102030405060708090a0b0c0d0e  ".toList (fun f => f) ≠ none := by decide

/-- C5 (amended): a literal whose character length is not 32 is rejected
with the length error before any serial I/O, and a 32-character literal
containing a character that is neither a hex digit nor ASCII whitespace is
rejected with the hex-format error before any serial I/O.  (A 32-character
literal whose only non-hex characters are ASCII whitespace at digit-pair
boundaries is accepted, as the counterexample shows.) -/
theorem C5_selfTest (lit : List Char) (device : List Nat → List Nat) :
    (lit.length ≠ 32 → selfTestParse lit = ParseResult.lengthError ∧
      selfTestRun lit device = none) ∧
    (lit.length = 32 → (∃ c ∈ lit, hexDigitVal c = none ∧ pySpace c = false) →
      selfTestParse lit = ParseResult.hexError ∧ selfTestRun lit device = none) := by
  constructor
  · intro hlen
    have hp : selfTestParse lit = ParseResult.lengthError := by
      unfold selfTestParse
      rw [if_pos hlen]
    exact ⟨hp, by rw [selfTestRun.eq_def, hp]⟩
  · intro hlen hbad
    obtain ⟨c, hc, hval, hsp⟩ := hbad
    have hfh : pyFromhex lit = none := pyFromhex_none_of_bad lit c hc hval hsp
    have hp : selfTestParse lit = ParseResult.hexError := by
      unfold selfTestParse
      rw [if_neg (by omega), hfh]
    exact ⟨hp, by rw [selfTestRun.eq_def, hp]⟩

/-- Witness for C5 at a 30-character literal (length error) and at a
32-character literal containing the non-hex, non-whitespace character 'g'
(hex-format error). -/
theorem C5_selfTest_witness :
    selfTestParse (List.replicate 30 '0') = ParseResult.lengthError ∧
    selfTestParse "000102030405060708090a0b0c0d0e0g".toList = ParseResult.hexError :=
  ⟨((C5_selfTest (List.replicate 30 '0') (fun f => f)).1 (by decide)).1,
    ((C5_selfTest "000102030405060708090a0b0c0d0e0g".toList (fun f => f)).2 (by decide)
      ⟨'g', by decide, by decide, by decide⟩).1⟩

/-- C6 counterexample: with 3 ports, the parsed integer -1 lies outside the
claimed valid range 0..2, yet the selector does not re-prompt with an
out-of-range message: Python's negative indexing returns the last port. -/
theorem C6_counterexample :
    ¬ (0 ≤ (-1 : Int) ∧ (-1 : Int) < 3) ∧
    menu_step ["a", "b", "c"] (some (-1)) = MenuOutcome.chosen "c" := by decide

/-- C6 (amended): a non-integer input re-prompts with the type-error
message; a parsed integer outside the extended range -n..n-1 re-prompts
with the out-of-range message; an integer i in 0..n-1 returns the
descriptor at index i, while (contrary to the claim) an integer i in
-n..-1 returns the descriptor at index n+i by Python negative indexing;
and every port the selection loop returns is drawn from the port list. -/
theorem C6_menu (ports : List String) (inp : Option Int) :
    (inp = none → menu_step ports inp = MenuOutcome.typeError) ∧
    (∀ i : Int, inp = some i → i < -(ports.length : Int) ∨ (ports.length : Int) ≤ i →
      menu_step ports inp = MenuOutcome.outOfRange) ∧
    (∀ i : Int, inp = some i → 0 ≤ i → i < (ports.length : Int) →
      menu_step ports inp = MenuOutcome.chosen (ports.getD i.toNat "")) ∧
    (∀ i : Int, inp = some i → -(ports.length : Int) ≤ i → i < 0 →
      menu_step ports inp = MenuOutcome.chosen (ports.getD (i + ports.length).toNat "")) ∧
    (∀ inputs p, menu_loop ports inputs = some p → p ∈ ports) := by
  refine ⟨?_, ?_, ?_, ?_, fun inputs p h => menu_loop_mem ports inputs p h⟩
  · intro h
    rw [h]
    rfl
  · intro i hi hout
    rw [hi]
    have hnone : pyGetItem ports i = none := by
      unfold pyGetItem
      rcases hout with h1 | h1
      · rw [if_neg (by omega), if_neg (by omega)]
      · rw [if_pos (by omega)]
        exact List.getElem?_eq_none (by omega)
    show (match pyGetItem ports i with
      | some port => MenuOutcome.chosen port
      | none => MenuOutcome.outOfRange) = MenuOutcome.outOfRange
    rw [hnone]
  · intro i hi h0 hlt
    rw [hi]
    have hidx : i.toNat < ports.length := by omega
    have hsome : pyGetItem ports i = some (ports.getD i.toNat "") := by
      unfold pyGetItem
      rw [if_pos h0, List.getElem?_eq_getElem hidx, List.getD_eq_getElem ports "" hidx]
    show (match pyGetItem ports i with
      | some port => MenuOutcome.chosen port
      | none => MenuOutcome.outOfRange) = MenuOutcome.chosen (ports.getD i.toNat "")
    rw [hsome]
  · intro i hi hge hlt
    rw [hi]
    have hidx : (i + ports.length).toNat < ports.length := by omega
    have hsome : pyGetItem ports i = some (ports.getD (i + ports.length).toNat "") := by
      unfold pyGetItem
      rw [if_neg (by omega), if_pos (by omega), List.getElem?_eq_getElem hidx,
        List.getD_eq_getElem ports "" hidx]
    show (match pyGetItem ports i with
      | some port => MenuOutcome.chosen port
      | none => MenuOutcome.outOfRange) =
        MenuOutcome.chosen (ports.getD (i + ports.length).toNat "")
    rw [hsome]

/-- Witness for C6 with ports `["a", "b", "c"]`: non-integer input, out of
range input 3, and valid input 1. -/
theorem C6_menu_witness :
    menu_step ["a", "b", "c"] none = MenuOutcome.typeError ∧
    menu_step ["a", "b", "c"] (some 3) = MenuOutcome.outOfRange ∧
    menu_step ["a", "b", "c"] (some 1) = MenuOutcome.chosen "b" :=
  ⟨(C6_menu ["a", "b", "c"] none).1 rfl,
    (C6_menu ["a", "b", "c"] (some 3)).2.1 3 rfl (Or.inr (by decide)),
    (C6_menu ["a", "b", "c"] (some 1)).2.2.1 1 rfl (by decide) (by decide)⟩

/-- C7: the session reconstruction is the join of the per-chunk decodes
truncated to the input text's character length (stated in general for any
response chunks that decode); and for a 10-character input text of
single-byte (ASCII) characters exchanged with the verbatim-echo device
there is exactly 1 chunk, the echoed frame holds 16 decodable bytes, and
the reconstructed output has exactly 10 characters. -/
theorem C7_reconstruction (input_text : List Char) (device : List Nat → List Nat)
    (h10 : input_text.length = 10) (hascii : ∀ c ∈ input_text, c.toNat < 128)
    (hdev : ∀ f, device f = f) :
    (∀ output_chunks ds L, decode_chunks output_chunks = some ds →
      reconstruct output_chunks L = some (ds.flatten.take L)) ∧
    (divide_chunks (str_encode input_text) 16).length = 1 ∧
    (∃ frame d, session_responses (divide_chunks (str_encode input_text) 16) device =
      some [frame] ∧ frame.length = 16 ∧ utf8Decode frame = some d ∧ d.length = 16) ∧
    (∃ out, session_round input_text device = some out ∧ out.length = 10) := by
  have hdevid : device = (fun f => f) := funext hdev
  subst hdevid
  have hbytes10 : (str_encode input_text).length = 10 := by
    rw [str_encode_ascii input_text hascii, List.length_map, h10]
  have hne : str_encode input_text ≠ [] := by
    intro h0
    rw [h0] at hbytes10
    simp at hbytes10
  have hsingle : divide_chunks (str_encode input_text) 16 = [str_encode input_text] :=
    divide_chunks_single _ hne (by omega)
  refine ⟨?_, by rw [hsingle]; rfl, ?_,
    ⟨input_text, session_round_ascii input_text hascii, h10⟩⟩
  · intro output_chunks ds L hdec
    unfold reconstruct
    rw [hdec]
    rfl
  · refine ⟨str_encode input_text ++
      List.replicate (16 - (str_encode input_text).length) 0x30,
      (str_encode input_text ++
        List.replicate (16 - (str_encode input_text).length) 0x30).map Char.ofNat,
      ?_, ?_, ?_, ?_⟩
    · rw [hsingle, session_responses_eq _ _
        (by intro c hc; rw [List.mem_singleton] at hc; rw [hc]; exact hne)]
      rfl
    · simp only [List.length_append, List.length_replicate]
      omega
    · refine utf8Decode_ascii _ ?_
      intro b hb
      rcases List.mem_append.mp hb with h1 | h1
      · exact bytes_of_encode_ascii input_text hascii b h1
      · have := List.eq_of_mem_replicate h1
        omega
    · rw [List.length_map]
      simp only [List.length_append, List.length_replicate]
      omega

/-- Witness for C7 at the concrete 10-character ASCII text "abcdefghij". -/
theorem C7_reconstruction_witness :
    ∃ out, session_round "abcdefghij".toList (fun f => f) = some out ∧ out.length = 10 :=
  (C7_reconstruction "abcdefghij".toList (fun f => f) (by decide) (by decide)
    (fun f => rfl)).2.2.2

/-- C8: the retry loop of `serial_port_menu` never proceeds with an empty
enumeration result: with an enumerator returning empty then a non-empty
`ps`, it prompts exactly once and continues with `ps`; in general the loop
ends at the first non-empty result, having prompted once per preceding
empty result, and every port the menu returns is drawn from a non-empty
enumeration result. -/
theorem C8_choose_port_retry (ps : List String) (hps : ps ≠ []) :
    choose_port_scan [[], ps] = some (1, ps) ∧
    (∀ enums n r, choose_port_scan enums = some (n, r) →
      r ≠ [] ∧ enums[n]? = some r ∧ ∀ k, k < n → enums[k]? = some []) ∧
    (∀ enums inputs p, serial_port_menu enums inputs = some p →
      ∃ n r, choose_port_scan enums = some (n, r) ∧ r ≠ [] ∧ p ∈ r) := by
  refine ⟨?_, fun enums n r h => choose_port_scan_sound enums n r h, ?_⟩
  · have h1 : choose_port_scan [[], ps] =
        (choose_port_scan [ps]).map (fun r => (r.1 + 1, r.2)) := by
      rw [choose_port_scan]
      rw [if_pos rfl]
    have h2 : choose_port_scan [ps] = some (0, ps) := by
      rw [choose_port_scan, if_neg hps]
    rw [h1, h2]
    rfl
  · intro enums inputs p h
    unfold serial_port_menu at h
    cases hs : choose_port_scan enums with
    | none =>
      rw [hs] at h
      simp at h
    | some r =>
      obtain ⟨n0, r0⟩ := r
      rw [hs] at h
      have hmem := menu_loop_mem r0 inputs p h
      have hsound := choose_port_scan_sound enums n0 r0 hs
      exact ⟨n0, r0, rfl, hsound.1, hmem⟩

/-- Witness for C8 with the single-port enumeration result `["x"]`. -/
theorem C8_choose_port_retry_witness :
    choose_port_scan [[], ["x"]] = some (1, ["x"]) :=
  (C8_choose_port_retry ["x"] (by decide)).1

/-- C9: `write_chunk` fails on the empty chunk (its padding loop refers to
the unbound loop variable `i`, raising `UnboundLocalError`) instead of
writing a filler-only frame; the case is unreachable from the session loop
because `divide_chunks` never produces an empty chunk, and the empty
payload yields zero chunks. -/
theorem C9_write_chunk_empty :
    write_chunk [] = none ∧
    divide_chunks [] 16 = [] ∧
    (∀ data : List Nat, ∀ c ∈ divide_chunks data 16, c ≠ []) := by
  refine ⟨rfl, divide_chunks_nil 16, ?_⟩
  intro data c hc
  have h1 := (divide_chunks_length_mem 16 (by decide) data c hc).1
  exact List.length_pos.mp (by omega)

/-- Witness for C9 with the membership hypothesis discharged at the
single chunk of the one-byte payload `[5]`. -/
theorem C9_write_chunk_empty_witness :
    ([5] : List Nat) ≠ [] :=
  C9_write_chunk_empty.2.2 [5] [5] (by decide)

/-- C10: the reconstruction decodes each echoed 16-byte frame with the
default strict UTF-8 codec and fails — produces no output — on a frame
that is not valid UTF-8 (e.g. sixteen 0xFF bytes); with a verbatim-echo
device and ASCII input text every echoed frame decodes and the
reconstructed text equals the input text. -/
theorem C10_decode_strictness (input_text : List Char)
    (hascii : ∀ c ∈ input_text, c.toNat < 128) :
    utf8Decode (List.replicate 16 0xFF) = none ∧
    reconstruct [List.replicate 16 0xFF] 16 = none ∧
    session_round input_text (fun f => f) = some input_text :=
  ⟨by decide, by decide, session_round_ascii input_text hascii⟩

/-- Witness for C10 at the concrete ASCII text "hello UART". -/
theorem C10_decode_strictness_witness :
    session_round "hello UART".toList (fun f => f) = some "hello UART".toList :=
  (C10_decode_strictness "hello UART".toList (by decide)).2.2

end UartSpec
